import Mathlib

/-
Verification of the multi-level cache / fault-isolation layer of the
smartTrain backend (src/backend/app/cache/lru_cache.py and friends).

Modelling conventions:
* Python wall-clock time (`time.time()`) is an explicit `Int` argument.
* A Python value is `Option α`: `Option.none` embeds the Python value `None`,
  `some a` embeds any other object.  This keeps the `None`-vs-absent
  conflation of the source observable.
* Python `dict` / `OrderedDict` is an association list `List (Key × β)` in
  insertion order (head = oldest entry; move-to-end appends).
* A raised exception is returned explicitly: operations that can raise return
  the post state paired with `Option PyErr` (the name of the escaping
  exception), or an `Except PyErr` result.
-/

namespace SmartTrain

/-- Name of a Python exception that escaped an operation. -/
abbrev PyErr := String

abbrev Key := String

/-- Keys of an association list, in order. -/
def keysOf (l : List (Key × β)) : List Key := l.map Prod.fst

/-- Python `key in d`. -/
def containsKey (k : Key) : List (Key × β) → Bool
  | [] => false
  | (k', _) :: rest => k = k' || containsKey k rest

/-- Python `d[key]` / `d.get(key)`: value of the first entry with key `k`. -/
def alGet? (k : Key) : List (Key × β) → Option β
  | [] => none
  | (k', v) :: rest => if k = k' then some v else alGet? k rest

/-- Python `del d[key]`: drop the first entry with key `k` (no-op when the key
is absent; every call site in the translated code guards presence, so the
CPython `KeyError` path is unreachable there). -/
def alErase (k : Key) : List (Key × β) → List (Key × β)
  | [] => []
  | (k', v) :: rest => if k = k' then rest else (k', v) :: alErase k rest

/-- Python `d[key] = v` on a plain dict: overwrite in place, append if new. -/
def alSet (k : Key) (v : β) : List (Key × β) → List (Key × β)
  | [] => [(k, v)]
  | (k', v') :: rest => if k = k' then (k, v) :: rest else (k', v') :: alSet k v rest

/-- Python `d.pop(key)`: the removed value and the remaining dict, or `none`
when the key is absent. -/
def alPop (k : Key) : List (Key × β) → Option (β × List (Key × β))
  | [] => none
  | (k', v) :: rest =>
    if k = k' then some (v, rest)
    else
      match alPop k rest with
      | none => none
      | some (w, l) => some (w, (k', v) :: l)

/-- State of the in-process L1 cache, translated from `class LRUCache` in
src/backend/app/cache/lru_cache.py.  `cache` is the `OrderedDict` (head =
least recently used), `timestamps` the insertion-time dict, `ttl` the default
TTL passed to the constructor. -/
structure LRUCache (α : Type) where
  max_size : Nat
  ttl : Option Int
  cache : List (Key × Option α)
  timestamps : List (Key × Int)
  hits : Nat
  misses : Nat
deriving Repr

/-- `LRUCache.__init__`: fresh cache. -/
def LRUCache.empty (α : Type) (max_size : Nat) (ttl : Option Int := none) : LRUCache α :=
  ⟨max_size, ttl, [], [], 0, 0⟩

/-- `LRUCache._is_expired`: `False` when the cache has no default TTL or the
key has no timestamp, otherwise `now - timestamps[key] > self.ttl`. -/
def LRUCache.isExpired (c : LRUCache α) (now : Int) (k : Key) : Bool :=
  match c.ttl with
  | none => false
  | some t =>
    match alGet? k c.timestamps with
    | none => false
    | some ts => decide (now - ts > t)

/-- `LRUCache._evict_expired`: drop every cache entry whose key is expired,
and the timestamp of every such key. -/
def LRUCache.evictExpired (c : LRUCache α) (now : Int) : LRUCache α :=
  { c with
    cache := c.cache.filter (fun p => !(c.isExpired now p.1)),
    timestamps := c.timestamps.filter
      (fun p => !(containsKey p.1 c.cache && c.isExpired now p.1)) }

/-- `LRUCache._evict_lru`: when `len(self.cache) >= self.max_size`, delete the
oldest entry.  On an empty `OrderedDict`, `next(iter(self.cache))` raises
`StopIteration` (the degenerate `max_size = 0` case). -/
def LRUCache.evictLru (c : LRUCache α) : LRUCache α × Option PyErr :=
  if c.max_size ≤ c.cache.length then
    match c.cache with
    | [] => (c, some "StopIteration")
    | (k0, _) :: rest =>
      ({ c with cache := rest, timestamps := alErase k0 c.timestamps }, none)
  else (c, none)

/-- `LRUCache.get`: purge expired entries, then return the stored value and
move the entry to most-recently-used, counting a hit; a miss (or an expired
entry) counts a miss and returns Python `None`. -/
def LRUCache.get (c : LRUCache α) (now : Int) (k : Key) : Option α × LRUCache α :=
  let c1 := c.evictExpired now
  match alPop k c1.cache with
  | none => (none, { c1 with misses := c1.misses + 1 })
  | some (v, rest) =>
    if c1.isExpired now k then
      (none,
        { c1 with
          cache := rest, timestamps := alErase k c1.timestamps, misses := c1.misses + 1 })
    else
      (v, { c1 with cache := rest ++ [(k, v)], hits := c1.hits + 1 })

/-- `LRUCache.set`: purge expired entries, run LRU eviction, re-insert the key
at most-recently-used with timestamp `now`; when a per-entry `ttl` is given
the timestamp becomes `now - self.ttl + ttl`, which raises `TypeError` when
`self.ttl` is `None`.  The exception (if any) is the second component; the
first component is the state at the moment the operation returned or raised. -/
def LRUCache.set (c : LRUCache α) (now : Int) (k : Key) (v : Option α)
    (ttl : Option Int := none) : LRUCache α × Option PyErr :=
  let c1 := c.evictExpired now
  match c1.evictLru with
  | (c2, some e) => (c2, some e)
  | (c2, none) =>
    let c3 := { c2 with
      cache := (if containsKey k c2.cache then alErase k c2.cache else c2.cache) ++ [(k, v)],
      timestamps := alSet k now c2.timestamps }
    match ttl with
    | none => (c3, none)
    | some t =>
      match c.ttl with
      | none => (c3, some "TypeError")
      | some d => ({ c3 with timestamps := alSet k (now - d + t) c3.timestamps }, none)

/-- `LRUCache.delete`: remove the key from both dicts, reporting existence. -/
def LRUCache.delete (c : LRUCache α) (k : Key) : Bool × LRUCache α :=
  if containsKey k c.cache then
    (true, { c with cache := alErase k c.cache, timestamps := alErase k c.timestamps })
  else (false, c)

/-- One public L1 operation, for stating properties of operation sequences. -/
inductive Op (α : Type) where
  | setOp (k : Key) (v : Option α) (ttl : Option Int)
  | getOp (k : Key)
  | delOp (k : Key)

/-- Apply one operation at wall-clock time `now`. -/
def LRUCache.applyOp (c : LRUCache α) (now : Int) : Op α → LRUCache α × Option PyErr
  | .setOp k v t => c.set now k v t
  | .getOp k => ((c.get now k).2, none)
  | .delOp k => ((c.delete k).2, none)

/-- Run a timed sequence of operations; an escaping exception aborts the run
(the state at the raise is returned, as in Python). -/
def LRUCache.runOps (c : LRUCache α) : List (Int × Op α) → LRUCache α × Option PyErr
  | [] => (c, none)
  | (now, op) :: rest =>
    match c.applyOp now op with
    | (c', none) => c'.runOps rest
    | (c', some e) => (c', some e)

/-- Interface of an L2 handle as used by `MultiLevelCache`
(src/backend/app/cache/lru_cache.py): `get`/`set` over an explicit store state
`σ`, either returning a result or raising. -/
structure L2Ops (α σ : Type) where
  get : σ → Key → Except PyErr (Option α × σ)
  set : σ → Key → Option α → Option Int → Except PyErr (Bool × σ)

/-- State of `class MultiLevelCache`: the L1 `LRUCache`, an optional L2 handle
(operations paired with the current store state), an optional L3 fetcher. -/
structure MultiLevelCache (α σ : Type) where
  l1_cache : LRUCache α
  l2_cache : Option (L2Ops α σ × σ)
  l3_fetcher : Option (Key → Except PyErr (Option α))

/-- The L3 branch of `MultiLevelCache.get`: invoke the fetcher; on a non-None
result populate L1 and (when configured) L2; return the fetched value. -/
def MultiLevelCache.l3Step (m : MultiLevelCache α σ) (now : Int) (k : Key) :
    Except PyErr (Option α × MultiLevelCache α σ) :=
  match m.l3_fetcher with
  | none => .ok (none, m)
  | some f =>
    match f k with
    | .error e => .error e
    | .ok none => .ok (none, m)
    | .ok (some v) =>
      match m.l1_cache.set now k (some v) none with
      | (_, some e) => .error e
      | (l1', none) =>
        let m1 := { m with l1_cache := l1' }
        match m1.l2_cache with
        | none => .ok (some v, m1)
        | some (ops, s) =>
          match ops.set s k (some v) none with
          | .error e => .error e
          | .ok (_, s') => .ok (some v, { m1 with l2_cache := some (ops, s') })

/-- `MultiLevelCache.get`: try L1; on a `None` result try L2 (promoting a hit
into L1 with no per-entry TTL); otherwise fall through to the L3 fetcher.
There is no exception handling: anything raised by the L2 handle, the L1 `set`
or the fetcher propagates to the caller. -/
def MultiLevelCache.get (m : MultiLevelCache α σ) (now : Int) (k : Key)
    (use_l1 : Bool := true) (use_l2 : Bool := true) :
    Except PyErr (Option α × MultiLevelCache α σ) :=
  let p1 : Option α × MultiLevelCache α σ :=
    if use_l1 then
      let r := m.l1_cache.get now k
      (r.1, { m with l1_cache := r.2 })
    else (none, m)
  match p1 with
  | (some v, m1) => .ok (some v, m1)
  | (none, m1) =>
    match (if use_l2 then m1.l2_cache else none) with
    | none => m1.l3Step now k
    | some (ops, s) =>
      match ops.get s k with
      | .error e => .error e
      | .ok (none, s') => { m1 with l2_cache := some (ops, s') }.l3Step now k
      | .ok (some v, s') =>
        match m1.l1_cache.set now k (some v) none with
        | (_, some e) => .error e
        | (l1', none) =>
          .ok (some v, { m1 with l1_cache := l1', l2_cache := some (ops, s') })

/-- `MultiLevelCache.set`: write through L1, then L2 when configured; overall
success is the L2 result (L1's `True` return is ignored by the source). -/
def MultiLevelCache.set (m : MultiLevelCache α σ) (now : Int) (k : Key) (v : Option α)
    (l1_ttl : Option Int := none) (l2_ttl : Option Int := none) :
    Except PyErr (Bool × MultiLevelCache α σ) :=
  match m.l1_cache.set now k v l1_ttl with
  | (_, some e) => .error e
  | (l1', none) =>
    let m1 := { m with l1_cache := l1' }
    match m1.l2_cache with
    | none => .ok (true, m1)
    | some (ops, s) =>
      match ops.set s k v l2_ttl with
      | .error e => .error e
      | .ok (ok2, s') => .ok (ok2, { m1 with l2_cache := some (ops, s') })

/-- Loop body of `MultiLevelCache.warm_up`: for each key invoke the fetcher;
a non-None value is written through `set` and counted.  There is no per-key
exception handling, so a raising fetcher (or a raising `set`) aborts the
remaining keys. -/
def MultiLevelCache.warmUpGo (m : MultiLevelCache α σ) (now : Int)
    (f : Key → Except PyErr (Option α)) (acc : Nat) :
    List Key → Except PyErr (Nat × MultiLevelCache α σ)
  | [] => .ok (acc, m)
  | k :: rest =>
    match f k with
    | .error e => .error e
    | .ok none => m.warmUpGo now f acc rest
    | .ok (some v) =>
      match m.set now k (some v) with
      | .error e => .error e
      | .ok (_, m') => m'.warmUpGo now f (acc + 1) rest

/-- `MultiLevelCache.warm_up`: use the given fetcher (falling back to the
configured L3 fetcher); with no fetcher available return 0. -/
def MultiLevelCache.warm_up (m : MultiLevelCache α σ) (now : Int) (keys : List Key)
    (fetcher : Option (Key → Except PyErr (Option α)) := none) :
    Except PyErr (Nat × MultiLevelCache α σ) :=
  match (match fetcher with | some f => some f | none => m.l3_fetcher) with
  | none => .ok (0, m)
  | some f => m.warmUpGo now f 0 keys

/-- Dict-backed L2 store with the `{get, set}` semantics of the repository's
`MockL2Cache` (src/backend/test_multi_level_cache.py) and of a reachable
`RedisL2Adapter`: `get` is `self.cache.get(key)` (stored value, or `None` when
absent — `Option.join` collapses the two), `set` stores and returns `True`.
Neither raises, and `get` leaves the store untouched. -/
def dictL2 (α : Type) : L2Ops α (List (Key × Option α)) where
  get s k := .ok ((alGet? k s).join, s)
  set s k v _ := .ok (true, alSet k v s)

/-- The L2 handle produced by `POICache.__init__`
(src/backend/app/cache/poi_cache.py line 25: `set_l2_cache(self)`): the
POICache itself is wired in as L2, but its `get`/`set` take
`(city, keywords, citylimit, ...)`, so `l2_cache.get(key)` /
`l2_cache.set(key, value)` raise `TypeError` for missing positional
arguments. -/
def poiSelfL2 (α : Type) : L2Ops α Unit where
  get _ _ := .error "TypeError"
  set _ _ _ _ := .error "TypeError"

/-- The `RedisL2Adapter` / `RedisManager` read path
(src/backend/app/cache/redis_manager.py): `redis_manager.get` returns `None`
when not connected, and catches any exception of the underlying client,
returning `None`.  The underlying client behaviour is given as
`raw : Key → Except PyErr (Option α)` and `connected : Bool`; the adapter
itself never raises. -/
def redisAdapterGet (connected : Bool) (raw : Key → Except PyErr (Option α))
    (k : Key) : Option α :=
  if !connected then none
  else
    match raw k with
    | .error _ => none
    | .ok v => v

/-- L2 handle built from `redisAdapterGet`; the store state records the raw
client behaviour and never raises (writes are absorbed the same way). -/
def redisL2 (α : Type) : L2Ops α (Bool × (Key → Except PyErr (Option α))) where
  get s k := .ok (redisAdapterGet s.1 s.2 k, s)
  set s _ _ _ := .ok (s.1, s)

/-- An always-missing L2 store that counts every access, used to make the
fall-through of `MultiLevelCache.get` past L2 observable in theorems. -/
def countingL2 (α : Type) : L2Ops α Nat where
  get s _ := .ok (none, s + 1)
  set s _ _ _ := .ok (true, s + 1)

/-- `LLMCache._generate_key` preimage (src/backend/app/cache/llm_cache.py
lines 48-55): the f-string `"{prompt}:{model}:{temperature}:{max_tokens}"`.
`temperature` is carried as its Python `str()` rendering (e.g. "0.7");
`max_tokens` renders as `"None"` or its decimal digits. -/
def renderMaxTokens : Option Int → String
  | none => "None"
  | some n => toString n

/-- Colon-joined key data string hashed by `_generate_key`. -/
def keyData (prompt model temperature : String) (max_tokens : Option Int) : String :=
  prompt ++ ":" ++ model ++ ":" ++ temperature ++ ":" ++ renderMaxTokens max_tokens

/-- `LLMCache._generate_key`, parametric in the hex digest function
`sha256hex` (SHA-256 itself is an opaque deterministic function here): the
key is `"llm:response:"` followed by the digest of `keyData`. -/
def generateKey (sha256hex : String → String) (prompt model temperature : String)
    (max_tokens : Option Int) : String :=
  "llm:response:" ++ sha256hex (keyData prompt model temperature max_tokens)

/-- Modelled from the spec: the FaultBreaker three-state machine of spec §4.3.
The state machine itself lives in the external `pybreaker` package — the
repository only configures it (src/backend/app/circuit_breaker_manager.py),
so its transition behaviour is not under src/ and is taken from the spec's
words: Closed counts consecutive failures up to `failMax` and then opens
recording `openedAt`; Open rejects until the reset timeout has elapsed and
then admits a single half-open probe; a successful probe closes and zeroes
both counters; a failed probe re-opens restarting the timeout. -/
inductive BState where
  | closed
  | opened
  | halfOpen
deriving DecidableEq, Repr

/-- Modelled from the spec: per-dependency breaker state (spec §3
`BreakerState`), the transition machinery being in the external `pybreaker`
package. -/
structure Breaker where
  state : BState
  failureCount : Nat
  successCount : Nat
  openedAt : Option Int
deriving Repr

/-- Modelled from the spec: breaker configuration (`fail_max`,
`reset_timeout` as passed to `pybreaker.CircuitBreaker` by
`CircuitBreakerManager._create_breaker`). -/
structure BreakerConfig where
  failMax : Nat
  resetTimeout : Int

/-- Modelled from the spec: a breaker as lazily created on first use (the
`pybreaker` initial state, absent from src/) — Closed with both counters at
zero. -/
def Breaker.fresh : Breaker := ⟨.closed, 0, 0, none⟩

/-- Modelled from the spec: the admission decision at the start of a guarded
call (the `pybreaker` entry check, absent from src/).  Closed lets the call
through; Open lets exactly the first call after the reset timeout through,
turning HalfOpen for the duration of that probe; HalfOpen (a probe already in
flight) and Open before the timeout reject. -/
def Breaker.beginCall (cfg : BreakerConfig) (b : Breaker) (now : Int) :
    Bool × Breaker :=
  match b.state with
  | .closed => (true, b)
  | .halfOpen => (false, b)
  | .opened =>
    match b.openedAt with
    | none => (false, b)
    | some t0 =>
      if now - t0 > cfg.resetTimeout then (true, { b with state := .halfOpen })
      else (false, b)

/-- Modelled from the spec: recording the outcome of an admitted call (the
`pybreaker` exit bookkeeping, absent from src/).  In Closed a success zeroes
the consecutive-failure counter and a failure increments it, opening at
`failMax`; a HalfOpen probe success closes zeroing both counters and a probe
failure re-opens with `openedAt = now`. -/
def Breaker.endCall (cfg : BreakerConfig) (b : Breaker) (now : Int)
    (succeeded : Bool) : Breaker :=
  match b.state with
  | .closed =>
    if succeeded then
      { b with failureCount := 0, successCount := b.successCount + 1 }
    else if cfg.failMax ≤ b.failureCount + 1 then
      { b with state := .opened, failureCount := b.failureCount + 1, openedAt := some now }
    else
      { b with failureCount := b.failureCount + 1 }
  | .halfOpen =>
    if succeeded then ⟨.closed, 0, 0, b.openedAt⟩
    else { b with state := .opened, openedAt := some now }
  | .opened => b

/-- Modelled from the spec: the result of one guarded call (the `pybreaker`
call outcome, absent from src/) — the wrapped outcome, or the distinct
breaker-open rejection (`CircuitBreakerError`), which never invokes the
wrapped function. -/
inductive CallResult (E A : Type) where
  | ok (a : A)
  | failed (e : E)
  | rejectedOpen
deriving DecidableEq, Repr

/-- Modelled from the spec: one guarded call through the breaker.  `outcome`
is what the wrapped function would produce if invoked; a rejected call leaves
it unused (the function is not invoked). -/
def Breaker.call (cfg : BreakerConfig) (b : Breaker) (now : Int)
    (outcome : Except E A) : CallResult E A × Breaker :=
  match b.beginCall cfg now with
  | (false, b') => (.rejectedOpen, b')
  | (true, b') =>
    match outcome with
    | .ok a => (.ok a, b'.endCall cfg now true)
    | .error e => (.failed e, b'.endCall cfg now false)

/-- Modelled from the spec: the bounded-retry loop of spec §4.4.  The loop
itself lives in the external `tenacity` package — the repository only
declares the policy (`stop_after_attempt`, `reraise=True` on
`AmapService._search_poi_with_retry`), so the executor is taken from the
spec's words.  `retryLoop f attempt n` performs attempts `attempt`,
`attempt+1`, …, `attempt+n` (that is, `n+1` attempts), returning the first
success or the last failure, together with the number of invocations made. -/
def retryLoop (f : Nat → Except E A) (attempt : Nat) : Nat → Except E A × Nat
  | 0 => (f attempt, 1)
  | n + 1 =>
    match f attempt with
    | .ok a => (.ok a, 1)
    | .error _ =>
      let r := retryLoop f (attempt + 1) n
      (r.1, r.2 + 1)

/-- Modelled from the spec: `RetryExecutor.execute` for a policy with
`maxAttempts ≥ 1` (attempt numbers are 1-based; the sleeps between attempts
do not affect the result and are elided). -/
def retryExecute (f : Nat → Except E A) (maxAttempts : Nat) : Except E A × Nat :=
  retryLoop f 1 (maxAttempts - 1)

/-! Basic lemmas about the ordered-dict primitives. -/

theorem keysOf_append (l₁ l₂ : List (Key × β)) :
    keysOf (l₁ ++ l₂) = keysOf l₁ ++ keysOf l₂ :=
  List.map_append _ _ _

theorem containsKey_iff_mem {k : Key} {l : List (Key × β)} :
    containsKey k l = true ↔ k ∈ keysOf l := by
  induction l with
  | nil => simp [containsKey, keysOf]
  | cons p rest ih =>
    cases p with
    | mk k' v => simp [containsKey, keysOf, ih]

theorem containsKey_eq_false_iff {k : Key} {l : List (Key × β)} :
    containsKey k l = false ↔ k ∉ keysOf l := by
  rw [← containsKey_iff_mem]
  cases h : containsKey k l <;> simp [h]

theorem containsKey_append {k : Key} (l₁ l₂ : List (Key × β)) :
    containsKey k (l₁ ++ l₂) = (containsKey k l₁ || containsKey k l₂) := by
  induction l₁ with
  | nil => simp [containsKey]
  | cons p rest ih => cases p; simp [containsKey, ih, Bool.or_assoc]

theorem alErase_sublist (k : Key) (l : List (Key × β)) : List.Sublist (alErase k l) l := by
  induction l with
  | nil => simp [alErase]
  | cons p rest ih =>
    cases p with
    | mk k' v =>
      simp only [alErase]
      split
      · exact (List.sublist_cons_self _ _)
      · exact ih.cons₂ _

theorem length_alErase_le (k : Key) (l : List (Key × β)) :
    (alErase k l).length ≤ l.length :=
  (alErase_sublist k l).length_le

theorem not_mem_keysOf_of_sublist {l' l : List (Key × β)} (h : List.Sublist l' l)
    {k : Key} (hk : k ∉ keysOf l) : k ∉ keysOf l' :=
  fun hmem => hk ((h.map Prod.fst).mem hmem)

theorem containsKey_alErase_of_ne {k k' : Key} (hne : k ≠ k') (l : List (Key × β)) :
    containsKey k (alErase k' l) = containsKey k l := by
  induction l with
  | nil => simp [alErase]
  | cons p rest ih =>
    cases p with
    | mk k₀ v =>
      simp only [alErase]
      split
      · next heq =>
        subst heq
        simp [containsKey, hne]
      · simp [containsKey, ih]

theorem alGet?_eq_none_of_not_contains {k : Key} {l : List (Key × β)}
    (h : containsKey k l = false) : alGet? k l = none := by
  induction l with
  | nil => rfl
  | cons p rest ih =>
    cases p with
    | mk k' v =>
      simp only [containsKey, Bool.or_eq_false_iff, decide_eq_false_iff_not] at h
      simp [alGet?, h.1, ih h.2]

theorem alPop_eq_none_of_not_contains {k : Key} {l : List (Key × β)}
    (h : containsKey k l = false) : alPop k l = none := by
  induction l with
  | nil => rfl
  | cons p rest ih =>
    cases p with
    | mk k' v =>
      simp only [containsKey, Bool.or_eq_false_iff, decide_eq_false_iff_not] at h
      simp [alPop, h.1, ih h.2]

theorem alGet?_append_of_not_contains {k : Key} {l₁ l₂ : List (Key × β)}
    (h : containsKey k l₁ = false) : alGet? k (l₁ ++ l₂) = alGet? k l₂ := by
  induction l₁ with
  | nil => rfl
  | cons p rest ih =>
    cases p with
    | mk k' v =>
      simp only [containsKey, Bool.or_eq_false_iff, decide_eq_false_iff_not] at h
      simp [alGet?, h.1, ih h.2]

theorem alPop_append_last {k : Key} {l : List (Key × β)} (v : β)
    (h : containsKey k l = false) : alPop k (l ++ [(k, v)]) = some (v, l) := by
  induction l with
  | nil => simp [alPop]
  | cons p rest ih =>
    cases p with
    | mk k' w =>
      simp only [containsKey, Bool.or_eq_false_iff, decide_eq_false_iff_not] at h
      simp [alPop, h.1, ih h.2]

theorem alPop_some {k : Key} {l : List (Key × β)} {v : β} {rest : List (Key × β)}
    (h : alPop k l = some (v, rest)) :
    alGet? k l = some v ∧ rest = alErase k l ∧ l.length = rest.length + 1 := by
  induction l generalizing rest with
  | nil => simp [alPop] at h
  | cons p tail ih =>
    cases p with
    | mk k' w =>
      simp only [alPop] at h
      split at h
      · next heq =>
        injection h with h
        injection h with h1 h2
        subst h1 h2
        simp [alGet?, alErase, heq]
      · next hne =>
        cases htl : alPop k tail with
        | none => rw [htl] at h; simp at h
        | some q =>
          cases q with
          | mk w' l' =>
            rw [htl] at h
            simp only [Option.some.injEq, Prod.mk.injEq] at h
            obtain ⟨h1, h2⟩ := h
            subst h1
            obtain ⟨g1, g2, g3⟩ := ih htl
            subst h2
            simp [alGet?, alErase, hne, g1, g2, List.length_cons, g3]

theorem alGet?_alSet_self (k : Key) (v : β) (l : List (Key × β)) :
    alGet? k (alSet k v l) = some v := by
  induction l with
  | nil => simp [alSet, alGet?]
  | cons p rest ih =>
    cases p with
    | mk k' w =>
      simp only [alSet]
      split
      · simp [alGet?]
      · next hne => simp [alGet?, hne, ih]

theorem alGet?_filter_of_pos {k : Key} {l : List (Key × β)} {v : β}
    {q : Key × β → Bool} (h : alGet? k l = some v) (hq : q (k, v) = true) :
    alGet? k (l.filter q) = some v := by
  induction l with
  | nil => simp [alGet?] at h
  | cons p rest ih =>
    cases p with
    | mk k' w =>
      simp only [alGet?] at h
      split at h
      · next heq =>
        subst heq
        injection h with h
        subst h
        simp [List.filter, hq, alGet?]
      · next hne =>
        cases hqp : q (k', w) <;> simp [List.filter, hqp, alGet?, hne, ih h]

theorem containsKey_false_of_sublist {l' l : List (Key × β)} (hs : List.Sublist l' l)
    {k : Key} (h : containsKey k l = false) : containsKey k l' = false := by
  rw [containsKey_eq_false_iff] at h ⊢
  exact not_mem_keysOf_of_sublist hs h

theorem nodup_keysOf_filter {l : List (Key × β)} (h : (keysOf l).Nodup)
    (p : Key × β → Bool) : (keysOf (l.filter p)).Nodup :=
  h.sublist ((List.filter_sublist l).map Prod.fst)

theorem not_mem_keysOf_alErase_self {k : Key} {l : List (Key × β)}
    (h : (keysOf l).Nodup) : k ∉ keysOf (alErase k l) := by
  induction l with
  | nil => simp [alErase, keysOf]
  | cons p rest ih =>
    cases p with
    | mk k' v =>
      simp only [keysOf, List.map_cons, List.nodup_cons] at h
      simp only [alErase]
      split
      · next heq => subst heq; exact fun hmem => h.1 hmem
      · next hne =>
        intro hmem
        simp only [keysOf, List.map_cons, List.mem_cons] at hmem
        rcases hmem with h1 | h2
        · exact hne h1
        · exact ih h.2 h2

/-! Lemmas about the translated `LRUCache` operations. -/

theorem evictExpired_max_size (c : LRUCache α) (now : Int) :
    (c.evictExpired now).max_size = c.max_size := rfl

theorem evictExpired_ttl (c : LRUCache α) (now : Int) :
    (c.evictExpired now).ttl = c.ttl := rfl

theorem evictExpired_cache (c : LRUCache α) (now : Int) :
    (c.evictExpired now).cache = c.cache.filter (fun p => !(c.isExpired now p.1)) := rfl

theorem evictExpired_cache_sublist (c : LRUCache α) (now : Int) :
    List.Sublist (c.evictExpired now).cache c.cache :=
  List.filter_sublist c.cache

theorem length_evictExpired_le (c : LRUCache α) (now : Int) :
    (c.evictExpired now).cache.length ≤ c.cache.length :=
  (evictExpired_cache_sublist c now).length_le

/-- Exhaustive case split on `_evict_lru`: below capacity nothing happens; at
capacity with an empty cache (only possible when `max_size = 0`) it raises;
otherwise it drops the head entry. -/
theorem evictLru_cases (c : LRUCache α) :
    (c.evictLru = (c, none) ∧ c.cache.length < c.max_size) ∨
    (c.evictLru = (c, some "StopIteration") ∧ c.cache = [] ∧ c.max_size = 0) ∨
    (∃ k0 v0 rest, c.cache = (k0, v0) :: rest ∧ c.max_size ≤ c.cache.length ∧
      c.evictLru =
        ({ c with cache := rest, timestamps := alErase k0 c.timestamps }, none)) := by
  cases hcc : c.cache with
  | nil =>
    by_cases hz : c.max_size = 0
    · refine Or.inr (Or.inl ⟨?_, rfl, hz⟩)
      simp [LRUCache.evictLru, hcc, hz]
    · refine Or.inl ⟨?_, ?_⟩
      · simp only [LRUCache.evictLru, hcc, List.length_nil]
        rw [if_neg (by omega)]
      · simp only [List.length_nil]
        omega
  | cons p rest =>
    cases p with
    | mk k0 v0 =>
      by_cases hle : c.max_size ≤ ((k0, v0) :: rest).length
      · refine Or.inr (Or.inr ⟨k0, v0, rest, rfl, hle, ?_⟩)
        simp only [LRUCache.evictLru, hcc]
        rw [if_pos (by simpa using hle)]
      · refine Or.inl ⟨?_, by omega⟩
        simp only [LRUCache.evictLru, hcc]
        rw [if_neg (by simpa using hle)]

/-- With a positive capacity `_evict_lru` never raises, and at capacity it
drops exactly the head (least-recently-used) entry. -/
theorem evictLru_spec (c : LRUCache α) (h1 : 1 ≤ c.max_size) :
    c.evictLru.2 = none ∧
    c.evictLru.1.cache = (if c.max_size ≤ c.cache.length then c.cache.tail else c.cache) ∧
    c.evictLru.1.max_size = c.max_size ∧
    c.evictLru.1.ttl = c.ttl := by
  rcases evictLru_cases c with ⟨heq, hlt⟩ | ⟨_, _, hz⟩ | ⟨k0, v0, rest, hc, hge, heq⟩
  · rw [heq]
    refine ⟨rfl, ?_, rfl, rfl⟩
    rw [if_neg (Nat.not_le.mpr hlt)]
  · omega
  · rw [heq]
    refine ⟨rfl, ?_, rfl, rfl⟩
    rw [if_pos hge, hc]
    rfl

theorem evictLru_max_size (c : LRUCache α) : c.evictLru.1.max_size = c.max_size := by
  simp only [LRUCache.evictLru]
  split
  · split <;> rfl
  · rfl

theorem evictLru_ttl (c : LRUCache α) : c.evictLru.1.ttl = c.ttl := by
  simp only [LRUCache.evictLru]
  split
  · split <;> rfl
  · rfl

theorem set_max_size (c : LRUCache α) (now : Int) (k : Key) (v : Option α) (t : Option Int) :
    (c.set now k v t).1.max_size = c.max_size := by
  simp only [LRUCache.set]
  rcases evictLru_cases (c.evictExpired now) with ⟨heq, _⟩ | ⟨heq, _, _⟩ |
      ⟨k0, v0, rest, _, _, heq⟩ <;>
    rw [heq] <;> cases t <;> cases c.ttl <;> rfl

theorem set_ttl (c : LRUCache α) (now : Int) (k : Key) (v : Option α) (t : Option Int) :
    (c.set now k v t).1.ttl = c.ttl := by
  simp only [LRUCache.set]
  rcases evictLru_cases (c.evictExpired now) with ⟨heq, _⟩ | ⟨heq, _, _⟩ |
      ⟨k0, v0, rest, _, _, heq⟩ <;>
    rw [heq] <;> cases t <;> cases httl : c.ttl <;>
    simp [httl, evictExpired_ttl]

/-- The single characterization of a `set` on a cache of positive capacity:
it never raises `StopIteration`; the resulting order is "(expiry-purged cache,
minus the LRU head when at capacity, minus the old entry of `k`) with `(k,v)`
appended most-recently-used"; the timestamp of `k` becomes `now` (shifted to
`now - D + T` for an explicit per-entry TTL `T` under default TTL `D`); an
explicit per-entry TTL with no default TTL raises `TypeError`. -/
theorem set_spec (c : LRUCache α) (now : Int) (k : Key) (v : Option α) (t : Option Int)
    (h1 : 1 ≤ c.max_size) :
    (c.set now k v t).1.cache =
      (let d := c.evictExpired now
       let base := if c.max_size ≤ d.cache.length then d.cache.tail else d.cache
       (if containsKey k base then alErase k base else base) ++ [(k, v)]) ∧
    alGet? k (c.set now k v t).1.timestamps =
      some (match t, c.ttl with
            | none, _ => now
            | some _, none => now
            | some T, some D => now - D + T) ∧
    (c.set now k v t).2 =
      (match t, c.ttl with
       | none, _ => none
       | some _, none => some "TypeError"
       | some _, some _ => none) := by
  have h1d : 1 ≤ (c.evictExpired now).max_size := by rw [evictExpired_max_size]; exact h1
  obtain ⟨he, hc, hm, _⟩ := evictLru_spec (c.evictExpired now) h1d
  rw [evictExpired_max_size] at hm
  rw [evictExpired_max_size] at hc
  simp only [LRUCache.set]
  cases hLru : (c.evictExpired now).evictLru with
  | mk c2 e =>
    rw [hLru] at he hc hm
    simp only at he hc hm
    subst he
    cases t with
    | none =>
      refine ⟨?_, ?_, rfl⟩
      · simp only [hc, hm]
      · simp only [alGet?_alSet_self]
    | some T =>
      cases httl : c.ttl with
      | none =>
        refine ⟨?_, ?_, rfl⟩
        · simp only [hc, hm]
        · simp only [alGet?_alSet_self]
      | some D =>
        refine ⟨?_, ?_, rfl⟩
        · simp only [hc, hm]
        · simp only [alGet?_alSet_self]

theorem get_max_size (c : LRUCache α) (now : Int) (k : Key) :
    (c.get now k).2.max_size = c.max_size := by
  simp only [LRUCache.get]
  split
  · rfl
  · split <;> rfl

theorem get_ttl (c : LRUCache α) (now : Int) (k : Key) :
    (c.get now k).2.ttl = c.ttl := by
  simp only [LRUCache.get]
  split
  · rfl
  · split <;> rfl

theorem delete_max_size (c : LRUCache α) (k : Key) :
    (c.delete k).2.max_size = c.max_size := by
  simp only [LRUCache.delete]
  split <;> rfl

/-- Size invariant, one `set` step: a cache within capacity stays within
capacity, whatever the outcome. -/
theorem length_set_le (c : LRUCache α) (now : Int) (k : Key) (v : Option α) (t : Option Int)
    (h : c.cache.length ≤ c.max_size) :
    (c.set now k v t).1.cache.length ≤ c.max_size := by
  have hd : (c.evictExpired now).cache.length ≤ c.max_size := by
    have := le_trans (length_evictExpired_le c now) h
    exact this
  have herase : ∀ base : List (Key × Option α),
      ((if containsKey k base then alErase k base else base) ++ [(k, v)]).length ≤
        base.length + 1 := by
    intro base
    split
    · simpa using Nat.add_le_add_right (length_alErase_le k base) 1
    · simp
  have hmax := evictExpired_max_size c now
  simp only [LRUCache.set]
  rcases evictLru_cases (c.evictExpired now) with ⟨heq, hlt⟩ | ⟨heq, hnil, _⟩ |
      ⟨k0, v0, rest, hc, hge, heq⟩
  · rw [heq]
    rw [hmax] at hlt
    have hlen := herase (c.evictExpired now).cache
    cases t with
    | none => simp only; omega
    | some T =>
      cases c.ttl with
      | none => simp only; omega
      | some D => simp only; omega
  · rw [heq]
    simp only [hnil, List.length_nil]
    omega
  · rw [heq]
    rw [hmax] at hge
    have hlen := herase rest
    have hrest : rest.length + 1 = (c.evictExpired now).cache.length := by
      rw [hc]; simp
    cases t with
    | none => simp only; omega
    | some T =>
      cases c.ttl with
      | none => simp only; omega
      | some D => simp only; omega

theorem alGet?_eq_none_iff {k : Key} {l : List (Key × β)} :
    alGet? k l = none ↔ containsKey k l = false := by
  induction l with
  | nil => simp [alGet?, containsKey]
  | cons p rest ih =>
    cases p with
    | mk k' v =>
      by_cases hk : k = k' <;> simp [alGet?, containsKey, hk, ih]

theorem length_get_le (c : LRUCache α) (now : Int) (k : Key)
    (h : c.cache.length ≤ c.max_size) :
    (c.get now k).2.cache.length ≤ c.max_size := by
  have hd : (c.evictExpired now).cache.length ≤ c.max_size :=
    le_trans (length_evictExpired_le c now) h
  simp only [LRUCache.get]
  split
  · exact hd
  · next v rest hp =>
    obtain ⟨_, _, hlen⟩ := alPop_some hp
    split
    · simp only
      omega
    · simp only [List.length_append, List.length_cons, List.length_nil]
      omega

theorem length_delete_le (c : LRUCache α) (k : Key) (h : c.cache.length ≤ c.max_size) :
    (c.delete k).2.cache.length ≤ c.max_size := by
  simp only [LRUCache.delete]
  split
  · exact le_trans (length_alErase_le k c.cache) h
  · exact h

theorem applyOp_max_size (c : LRUCache α) (now : Int) (op : Op α) :
    (c.applyOp now op).1.max_size = c.max_size := by
  cases op with
  | setOp k v t => exact set_max_size c now k v t
  | getOp k => exact get_max_size c now k
  | delOp k => exact delete_max_size c k

theorem length_applyOp_le (c : LRUCache α) (now : Int) (op : Op α)
    (h : c.cache.length ≤ c.max_size) :
    (c.applyOp now op).1.cache.length ≤ c.max_size := by
  cases op with
  | setOp k v t => exact length_set_le c now k v t h
  | getOp k => exact length_get_le c now k h
  | delOp k => exact length_delete_le c k h

/-- Size invariant over arbitrary operation sequences: starting within
capacity, the cache never exceeds its capacity (which is itself preserved). -/
theorem runOps_invariant (l : List (Int × Op α)) (c : LRUCache α)
    (h : c.cache.length ≤ c.max_size) :
    (c.runOps l).1.cache.length ≤ c.max_size ∧ (c.runOps l).1.max_size = c.max_size := by
  induction l generalizing c with
  | nil => exact ⟨h, rfl⟩
  | cons p rest ih =>
    cases p with
    | mk now op =>
      simp only [LRUCache.runOps]
      cases hap : c.applyOp now op with
      | mk c' e =>
        have hmax : c'.max_size = c.max_size := by
          have := applyOp_max_size c now op
          rw [hap] at this
          exact this
        have hlen : c'.cache.length ≤ c.max_size := by
          have := length_applyOp_le c now op h
          rw [hap] at this
          exact this
        cases e with
        | none =>
          obtain ⟨g1, g2⟩ := ih c' (by rw [hmax]; exact hlen)
          rw [hmax] at g1 g2
          exact ⟨g1, g2⟩
        | some e => exact ⟨hlen, hmax⟩

/-- A `set` on a positive-capacity cache with no duplicate keys leaves no
duplicate keys. -/
theorem nodup_keysOf_set (c : LRUCache α) (now : Int) (k : Key) (v : Option α)
    (t : Option Int) (h1 : 1 ≤ c.max_size) (hnd : (keysOf c.cache).Nodup) :
    (keysOf (c.set now k v t).1.cache).Nodup := by
  obtain ⟨hcache, _, _⟩ := set_spec c now k v t h1
  rw [hcache]
  have hdnod : (keysOf (c.evictExpired now).cache).Nodup := by
    rw [evictExpired_cache]
    exact nodup_keysOf_filter hnd _
  have hbasesub : List.Sublist
      (if c.max_size ≤ (c.evictExpired now).cache.length
       then (c.evictExpired now).cache.tail else (c.evictExpired now).cache)
      (c.evictExpired now).cache := by
    split
    · exact List.tail_sublist _
    · exact List.Sublist.refl _
  have hbnod : (keysOf (if c.max_size ≤ (c.evictExpired now).cache.length
      then (c.evictExpired now).cache.tail else (c.evictExpired now).cache)).Nodup :=
    hdnod.sublist (hbasesub.map Prod.fst)
  simp only
  set base := if c.max_size ≤ (c.evictExpired now).cache.length
      then (c.evictExpired now).cache.tail else (c.evictExpired now).cache with hbase
  have hY : (keysOf (if containsKey k base then alErase k base else base)).Nodup ∧
      k ∉ keysOf (if containsKey k base then alErase k base else base) := by
    split
    · exact ⟨hbnod.sublist ((alErase_sublist k base).map Prod.fst),
        not_mem_keysOf_alErase_self hbnod⟩
    · next hnc =>
      exact ⟨hbnod, containsKey_eq_false_iff.mp (Bool.eq_false_iff.mpr hnc)⟩
  rw [keysOf_append]
  rw [List.nodup_append]
  refine ⟨hY.1, List.nodup_singleton k, ?_⟩
  intro a ha hb
  simp only [keysOf, List.map_cons, List.map_nil, List.mem_singleton] at hb
  subst hb
  exact hY.2 ha

/-- Non-expiry survives `_evict_expired`: the purge never makes a live key
look expired. -/
theorem isExpired_evictExpired_false (c : LRUCache α) (now : Int) (k : Key)
    (h : c.isExpired now k = false) : (c.evictExpired now).isExpired now k = false := by
  unfold LRUCache.isExpired
  rw [evictExpired_ttl]
  cases httl : c.ttl with
  | none => rfl
  | some t =>
    unfold LRUCache.isExpired at h
    rw [httl] at h
    cases hts : alGet? k c.timestamps with
    | none =>
      have : containsKey k c.timestamps = false := alGet?_eq_none_iff.mp hts
      have hf : containsKey k (c.evictExpired now).timestamps = false := by
        exact containsKey_false_of_sublist (List.filter_sublist _) this
      rw [alGet?_eq_none_iff.mpr hf]
    | some ts =>
      rw [hts] at h
      have hq : (fun p => !(containsKey p.1 c.cache && c.isExpired now p.1)) (k, ts) = true := by
        have hke : c.isExpired now k = false := by
          unfold LRUCache.isExpired
          rw [httl, hts]
          exact h
        simp [hke]
      have : alGet? k (c.evictExpired now).timestamps = some ts :=
        alGet?_filter_of_pos hts hq
      rw [this]
      exact h

/-- A `get` of a key that sits most-recently-used with no earlier duplicate
and is not expired: it returns the stored value (even a stored Python
`None`!), counts a hit, and keeps the entry most-recently-used. -/
theorem get_fresh (c : LRUCache α) (now : Int) (k : Key) (w : Option α)
    (X : List (Key × Option α))
    (hcache : c.cache = X ++ [(k, w)])
    (hX : containsKey k X = false)
    (hexp : c.isExpired now k = false) :
    (c.get now k).1 = w ∧
    (c.get now k).2.cache =
      X.filter (fun p => !(c.isExpired now p.1)) ++ [(k, w)] ∧
    (c.get now k).2.hits = c.hits + 1 := by
  have hfilt : (c.evictExpired now).cache
      = X.filter (fun p => !(c.isExpired now p.1)) ++ [(k, w)] := by
    rw [evictExpired_cache, hcache, List.filter_append]
    simp [hexp]
  have hXf : containsKey k (X.filter (fun p => !(c.isExpired now p.1))) = false :=
    containsKey_false_of_sublist (List.filter_sublist X) hX
  have hexp1 : (c.evictExpired now).isExpired now k = false :=
    isExpired_evictExpired_false c now k hexp
  simp only [LRUCache.get]
  rw [hfilt, alPop_append_last w hXf, hexp1]
  exact ⟨rfl, rfl, rfl⟩

/-- A `get` of an absent key: returns Python `None`, counts a miss, and the
key is still absent afterwards. -/
theorem get_miss (c : LRUCache α) (now : Int) (k : Key)
    (h : containsKey k c.cache = false) :
    (c.get now k).1 = none ∧
    (c.get now k).2 =
      { c.evictExpired now with misses := (c.evictExpired now).misses + 1 } ∧
    containsKey k (c.get now k).2.cache = false := by
  have hno : containsKey k (c.evictExpired now).cache = false :=
    containsKey_false_of_sublist (evictExpired_cache_sublist c now) h
  simp only [LRUCache.get]
  rw [alPop_eq_none_of_not_contains hno]
  exact ⟨rfl, rfl, hno⟩

/-! Lemmas about the spec-modelled retry loop. -/

theorem retryLoop_succeeds {E A : Type} (f : Nat → Except E A) (n : Nat) :
    ∀ (a : Nat) (v : A), (∀ i, i < n → ∃ e, f (a + i) = .error e) →
    f (a + n) = .ok v → retryLoop f a n = (.ok v, n + 1) := by
  induction n with
  | zero =>
    intro a v _ hok
    simp only [Nat.add_zero] at hok
    simp [retryLoop, hok]
  | succ n ih =>
    intro a v hfail hok
    obtain ⟨e, he⟩ := hfail 0 (Nat.succ_pos n)
    simp only [Nat.add_zero] at he
    have hrec := ih (a + 1) v
      (fun i hi => by
        have := hfail (i + 1) (Nat.succ_lt_succ hi)
        simpa [Nat.add_assoc, Nat.add_comm 1 i] using this)
      (by simpa [Nat.add_assoc, Nat.add_comm 1 n] using hok)
    simp [retryLoop, he, hrec]

theorem retryLoop_all_fail {E A : Type} (f : Nat → Except E A) (n : Nat) :
    ∀ (a : Nat) (elast : E), (∀ i, i < n → ∃ e, f (a + i) = .error e) →
    f (a + n) = .error elast → retryLoop f a n = (.error elast, n + 1) := by
  induction n with
  | zero =>
    intro a elast _ hlast
    simp only [Nat.add_zero] at hlast
    simp [retryLoop, hlast]
  | succ n ih =>
    intro a elast hfail hlast
    obtain ⟨e, he⟩ := hfail 0 (Nat.succ_pos n)
    simp only [Nat.add_zero] at he
    have hrec := ih (a + 1) elast
      (fun i hi => by
        have := hfail (i + 1) (Nat.succ_lt_succ hi)
        simpa [Nat.add_assoc, Nat.add_comm 1 i] using this)
      (by simpa [Nat.add_assoc, Nat.add_comm 1 n] using hlast)
    simp [retryLoop, he, hrec]

/-- C3: retry semantics (spec-modelled executor, policy as configured on
`AmapService._search_poi_with_retry`): a wrapped function failing on attempts
1 and 2 and succeeding on attempt 3 returns the success value after exactly 3
invocations under `maxAttempts = 3`; under `maxAttempts = 2` the caller
receives the attempt-2 failure unchanged after exactly 2 invocations; and when
every attempt fails, the last failure is propagated, never swallowed. -/
theorem claim3_retry_semantics {E A : Type} (e1 e2 : E) (v : A)
    (f : Nat → Except E A)
    (h1 : f 1 = .error e1) (h2 : f 2 = .error e2) (h3 : f 3 = .ok v) :
    retryExecute f 3 = (.ok v, 3) ∧
    retryExecute f 2 = (.error e2, 2) ∧
    (∀ (n : Nat) (g : Nat → Except E A) (elast : E), 1 ≤ n →
      (∀ i, 1 ≤ i → i < n → ∃ e, g i = .error e) →
      g n = .error elast →
      retryExecute g n = (.error elast, n)) := by
  refine ⟨?_, ?_, ?_⟩
  · have := retryLoop_succeeds f 2 1 v
      (fun i hi => by
        interval_cases i
        · exact ⟨e1, h1⟩
        · exact ⟨e2, h2⟩)
      (by simpa using h3)
    simpa [retryExecute] using this
  · have := retryLoop_all_fail f 1 1 e2
      (fun i hi => by
        interval_cases i
        exact ⟨e1, h1⟩)
      (by simpa using h2)
    simpa [retryExecute] using this
  · intro n g elast hn hfail hlast
    obtain ⟨m, rfl⟩ : ∃ m, n = m + 1 := ⟨n - 1, by omega⟩
    have := retryLoop_all_fail g m 1 elast
      (fun i hi => hfail (1 + i) (by omega) (by omega))
      (by
        have : 1 + m = m + 1 := Nat.add_comm 1 m
        rw [this]
        exact hlast)
    simpa [retryExecute] using this

/-- C3 witness: a concrete function failing twice then succeeding. -/
theorem claim3_witness :
    retryExecute (fun i => if i = 1 then .error "a" else if i = 2 then .error "b"
      else (.ok 7 : Except String Nat)) 3 = (.ok 7, 3) ∧
    retryExecute (fun i => if i = 1 then .error "a" else if i = 2 then .error "b"
      else (.ok 7 : Except String Nat)) 2 = (.error "b", 2) := by
  have h := claim3_retry_semantics "a" "b" 7
    (fun i => if i = 1 then .error "a" else if i = 2 then .error "b"
      else (.ok 7 : Except String Nat)) rfl rfl rfl
  exact ⟨h.1, h.2.1⟩

/-- C2: the breaker state machine (spec-modelled, as configured with
`fail_max = 3`): three consecutive failures drive Closed to Open; while Open
and before the reset timeout every call is rejected with the distinct
breaker-open result, independent of (hence without invoking) the wrapped
function; once the timeout has elapsed the next call is admitted as the single
half-open probe (a second call during the probe is rejected); a successful
probe closes the breaker zeroing both counters; a failed probe re-opens it
with the timeout restarted at the probe time. -/
theorem claim2_breaker_state_machine {E A : Type} (rt t1 t2 t3 : Int)
    (e1 e2 e3 : E) :
    Breaker.call ⟨3, rt⟩ Breaker.fresh t1 (.error e1 : Except E A) =
      (.failed e1, ⟨.closed, 1, 0, none⟩) ∧
    Breaker.call ⟨3, rt⟩ ⟨.closed, 1, 0, none⟩ t2 (.error e2 : Except E A) =
      (.failed e2, ⟨.closed, 2, 0, none⟩) ∧
    Breaker.call ⟨3, rt⟩ ⟨.closed, 2, 0, none⟩ t3 (.error e3 : Except E A) =
      (.failed e3, ⟨.opened, 3, 0, some t3⟩) ∧
    (∀ (t : Int) (outcome : Except E A), t - t3 ≤ rt →
      Breaker.call ⟨3, rt⟩ ⟨.opened, 3, 0, some t3⟩ t outcome =
        (.rejectedOpen, ⟨.opened, 3, 0, some t3⟩)) ∧
    (∀ t : Int, t - t3 > rt →
      Breaker.beginCall ⟨3, rt⟩ ⟨.opened, 3, 0, some t3⟩ t =
        (true, ⟨.halfOpen, 3, 0, some t3⟩)) ∧
    (∀ (t : Int) (outcome : Except E A),
      Breaker.call ⟨3, rt⟩ ⟨.halfOpen, 3, 0, some t3⟩ t outcome =
        (.rejectedOpen, ⟨.halfOpen, 3, 0, some t3⟩)) ∧
    (∀ (t : Int) (a : A), t - t3 > rt →
      Breaker.call ⟨3, rt⟩ ⟨.opened, 3, 0, some t3⟩ t (.ok a : Except E A) =
        (.ok a, ⟨.closed, 0, 0, some t3⟩)) ∧
    (∀ (t : Int) (e : E), t - t3 > rt →
      Breaker.call ⟨3, rt⟩ ⟨.opened, 3, 0, some t3⟩ t (.error e : Except E A) =
        (.failed e, ⟨.opened, 3, 0, some t⟩)) := by
  refine ⟨?_, ?_, ?_, ?_, ?_, ?_, ?_, ?_⟩
  · simp [Breaker.call, Breaker.beginCall, Breaker.endCall, Breaker.fresh]
  · simp [Breaker.call, Breaker.beginCall, Breaker.endCall]
  · simp [Breaker.call, Breaker.beginCall, Breaker.endCall]
  · intro t outcome ht
    simp [Breaker.call, Breaker.beginCall, Int.not_lt.mpr ht]
  · intro t ht
    simp [Breaker.beginCall, ht]
  · intro t outcome
    simp [Breaker.call, Breaker.beginCall]
  · intro t a ht
    simp [Breaker.call, Breaker.beginCall, Breaker.endCall, ht]
  · intro t e ht
    simp [Breaker.call, Breaker.beginCall, Breaker.endCall, ht]

/-- C2 witness: the full scenario at concrete times with `resetTimeout = 10`. -/
theorem claim2_witness :
    Breaker.call ⟨3, 10⟩ ⟨.opened, 3, 0, some 2⟩ 5 (.ok 1 : Except String Nat) =
      (.rejectedOpen, ⟨.opened, 3, 0, some 2⟩) ∧
    Breaker.call ⟨3, 10⟩ ⟨.opened, 3, 0, some 2⟩ 13 (.ok 1 : Except String Nat) =
      (.ok 1, ⟨.closed, 0, 0, some 2⟩) ∧
    Breaker.call ⟨3, 10⟩ ⟨.opened, 3, 0, some 2⟩ 13 (.error "e" : Except String Nat) =
      (.failed "e", ⟨.opened, 3, 0, some 13⟩) := by
  have h := claim2_breaker_state_machine (E := String) (A := Nat) 10 0 1 2 "x" "y" "z"
  exact ⟨h.2.2.2.1 5 (.ok 1) (by decide), h.2.2.2.2.2.2.1 13 1 (by decide),
    h.2.2.2.2.2.2.2 13 "e" (by decide)⟩

/-- C8 counterexample: two logical requests that differ in the prompt and
model fields produce the same colon-joined `key_data` string, hence the same
SHA-256 input and the same cache key, refuting collision-freeness over the
logical inputs. -/
theorem claim8_counterexample :
    keyData "a:b" "m" "0.7" none = keyData "a" "b:m" "0.7" none ∧
    ("a:b" : String) ≠ "a" := by
  exact ⟨rfl, by decide⟩

/-- C8 amended: key derivation is deterministic, and two requests collide
exactly when their colon-joined serializations coincide (for any injective
digest): tuples that differ in a field can still collide when a field contains
the `:` separator. -/
theorem claim8_key_derivation_amended (h : String → String)
    (hinj : Function.Injective h) (p1 m1 t1 : String) (mt1 : Option Int)
    (p2 m2 t2 : String) (mt2 : Option Int) :
    generateKey h p1 m1 t1 mt1 = generateKey h p1 m1 t1 mt1 ∧
    (generateKey h p1 m1 t1 mt1 = generateKey h p2 m2 t2 mt2 ↔
      keyData p1 m1 t1 mt1 = keyData p2 m2 t2 mt2) := by
  refine ⟨rfl, ?_, ?_⟩
  · intro heq
    unfold generateKey at heq
    have hd := congrArg String.data heq
    simp only [String.data_append] at hd
    exact hinj (String.ext (List.append_cancel_left hd))
  · intro heq
    unfold generateKey
    rw [heq]

/-- C8 witness: the amended theorem applied at the identity digest and
concrete fields. -/
theorem claim8_witness :
    (generateKey id "P" "m" "0.7" none = generateKey id "P" "m" "0.7" (some 5) ↔
      keyData "P" "m" "0.7" none = keyData "P" "m" "0.7" (some 5)) :=
  (claim8_key_derivation_amended id Function.injective_id
    "P" "m" "0.7" none "P" "m" "0.7" (some 5)).2

/-- C6: the failing POICache configuration evaluated on the model.
`POICache.__init__` wires the POICache itself in as the L2 handle of its
`MultiLevelCache`, but `POICache.get` takes `(city, keywords, citylimit)`, so
the `l2_cache.get(key)` call inside `MultiLevelCache.get` raises `TypeError`,
and `MultiLevelCache.get` — having no try/except — propagates the raw
exception to the caller on every L1 miss, instead of degrading to the
remaining levels. -/
theorem claim6_l2_exception_propagates :
    MultiLevelCache.get
      (⟨LRUCache.empty Nat 1000 none, some (poiSelfL2 Nat, ()), none⟩ :
        MultiLevelCache Nat Unit)
      0 "poi:search:beijing:palace:True" = .error "TypeError" := rfl

/-- C7 counterexample: a fetcher that raises on the first key aborts
`MultiLevelCache.warm_up` (the loop has no per-key try/except), so the raised
failure is not isolated and the remaining keys are never processed. -/
theorem claim7_counterexample :
    MultiLevelCache.warm_up
      (⟨LRUCache.empty Nat 1 none, none, none⟩ : MultiLevelCache Nat Unit)
      0 ["a", "b"]
      (some (fun k => if k = "a" then .error "boom" else .ok (some 1))) =
    .error "boom" := by
  simp [MultiLevelCache.warm_up, MultiLevelCache.warmUpGo]

theorem set_none_ttl_ok (c : LRUCache α) (now : Int) (k : Key) (v : Option α)
    (h1 : 1 ≤ c.max_size) : (c.set now k v none).2 = none :=
  (set_spec c now k v none h1).2.2

theorem warmUpGo_pure {α σ : Type} (f : Key → Option α) (now : Int) :
    ∀ (keys : List Key) (m : MultiLevelCache α σ) (acc : Nat),
    m.l2_cache = none → 1 ≤ m.l1_cache.max_size →
    ∃ m', m.warmUpGo now (fun k => .ok (f k)) acc keys =
        .ok (acc + (keys.filter (fun k => (f k).isSome)).length, m') ∧
      m'.l2_cache = none ∧ 1 ≤ m'.l1_cache.max_size := by
  intro keys
  induction keys with
  | nil =>
    intro m acc hl2 hcap
    exact ⟨m, by simp [MultiLevelCache.warmUpGo], hl2, hcap⟩
  | cons k rest ih =>
    intro m acc hl2 hcap
    cases hf : f k with
    | none =>
      obtain ⟨m', hm', h2, h3⟩ := ih m acc hl2 hcap
      refine ⟨m', ?_, h2, h3⟩
      simp only [MultiLevelCache.warmUpGo, hf]
      rw [hm']
      simp [List.filter, hf]
    | some v =>
      cases hset : m.l1_cache.set now k (some v) none with
      | mk l1' e =>
        have he : e = none := by
          have := set_none_ttl_ok m.l1_cache now k (some v) hcap
          rw [hset] at this
          exact this
        subst he
        have hcap' : 1 ≤ l1'.max_size := by
          have := set_max_size m.l1_cache now k (some v) none
          rw [hset] at this
          simp only at this
          rw [this]
          exact hcap
        obtain ⟨m', hm', h2, h3⟩ :=
          ih { m with l1_cache := l1' } (acc + 1) (by simpa using hl2) hcap'
        refine ⟨m', ?_, h2, h3⟩
        rw [hl2] at hm'
        simp only [MultiLevelCache.warmUpGo, hf, MultiLevelCache.set, hset, hl2]
        rw [hm']
        simp [List.filter, hf]
        omega

/-- C7 amended: `warm_up` invokes the fetcher on each key, writes every
non-absent result through `set`, and returns the count of keys whose fetch
produced a value — a key whose fetch yields no value is skipped without
aborting the batch; a fetcher that raises, however, aborts the remaining keys
(no per-key exception isolation exists in `MultiLevelCache.warm_up`). -/
theorem claim7_warm_up_amended {α σ : Type} (m : MultiLevelCache α σ) (now : Int)
    (keys : List Key) (f : Key → Option α)
    (hl2 : m.l2_cache = none) (hcap : 1 ≤ m.l1_cache.max_size) :
    ∃ m', m.warm_up now keys (some (fun k => .ok (f k))) =
      .ok ((keys.filter (fun k => (f k).isSome)).length, m') := by
  obtain ⟨m', hm', _, _⟩ := warmUpGo_pure f now keys m 0 hl2 hcap
  refine ⟨m', ?_⟩
  simp only [MultiLevelCache.warm_up]
  rw [hm']
  simp

/-- C7 witness: a two-key batch where one fetch yields no value. -/
theorem claim7_witness :
    ∃ m', MultiLevelCache.warm_up
        (⟨LRUCache.empty Nat 4 none, none, none⟩ : MultiLevelCache Nat Unit)
        0 ["x", "y"]
        (some (fun k => .ok (if k = "x" then some 3 else none))) = .ok (1, m') := by
  have h := claim7_warm_up_amended
    (⟨LRUCache.empty Nat 4 none, none, none⟩ : MultiLevelCache Nat Unit)
    0 ["x", "y"] (fun k => if k = "x" then some 3 else none) rfl (by decide)
  simpa using h

/-- C9 counterexample: on a capacity-0 cache the very first `set` raises
`StopIteration` out of `_evict_lru` (`next(iter(...))` on an empty
`OrderedDict`), refuting "set never raises". -/
theorem claim9_counterexample :
    ((LRUCache.empty Nat 0 none).set 0 "a" (some 1) none).2 =
      some "StopIteration" := rfl

/-- C9 amended: with capacity at least 1 a `set` carrying no per-entry TTL
never raises, and at capacity 1 the second insert of a distinct key evicts the
first entry before inserting the new one; but a capacity-0 cache raises
`StopIteration` on every `set`. -/
theorem claim9_degenerate_capacity_amended {α : Type} :
    (∀ (c : LRUCache α) (now : Int) (k : Key) (v : Option α),
       1 ≤ c.max_size → (c.set now k v none).2 = none) ∧
    (∀ (ttl0 : Option Int) (now : Int) (k : Key) (v : Option α) (t : Option Int),
       ((LRUCache.empty α 0 ttl0).set now k v t).2 = some "StopIteration") ∧
    (∀ (now1 now2 : Int) (k1 k2 : Key) (v1 v2 : Option α), k1 ≠ k2 →
       (((LRUCache.empty α 1 none).set now1 k1 v1 none).1.set now2 k2 v2 none).1.cache =
         [(k2, v2)]) := by
  refine ⟨fun c now k v h1 => set_none_ttl_ok c now k v h1, ?_, ?_⟩
  · intro ttl0 now k v t
    rfl
  · intro now1 now2 k1 k2 v1 v2 _
    simp [LRUCache.set, LRUCache.evictExpired, LRUCache.evictLru, LRUCache.isExpired,
      LRUCache.empty, containsKey, alErase, alSet, List.filter]

/-- C9 witness: the amended theorem at concrete inputs. -/
theorem claim9_witness :
    ((LRUCache.empty Nat 5 none).set 0 "k" (some 1) none).2 = none ∧
    ((LRUCache.empty Nat 0 (some 3)).set 0 "k" (some 1) (some 2)).2 =
      some "StopIteration" ∧
    (((LRUCache.empty Nat 1 none).set 0 "x" (some 1) none).1.set 1 "y"
      (some 2) none).1.cache = [("y", some 2)] := by
  have h := claim9_degenerate_capacity_amended (α := Nat)
  exact ⟨h.1 _ 0 "k" (some 1) (by decide), h.2.1 (some 3) 0 "k" (some 1) (some 2),
    h.2.2 0 1 "x" "y" (some 1) (some 2) (by decide)⟩

theorem alPop_append_middle {k : Key} {X : List (Key × β)} (w : β) (Y : List (Key × β))
    (h : containsKey k X = false) : alPop k (X ++ (k, w) :: Y) = some (w, X ++ Y) := by
  induction X with
  | nil => simp [alPop]
  | cons p rest ih =>
    cases p with
    | mk k' v =>
      simp only [containsKey, Bool.or_eq_false_iff, decide_eq_false_iff_not] at h
      simp [alPop, h.1, ih h.2]

theorem containsKey_filter_of_key_false {k : Key} {l : List (Key × β)}
    {p : Key × β → Bool} (h : ∀ v, p (k, v) = false) :
    containsKey k (l.filter p) = false := by
  induction l with
  | nil => rfl
  | cons q rest ih =>
    cases q with
    | mk k' v =>
      by_cases hk : k = k'
      · subst hk
        simp [List.filter, h v, ih]
      · cases hp : p (k', v) <;> simp [List.filter, hp, containsKey, hk, ih]

/-- A `get` of a live (non-expired) key with no earlier entry of the same key:
returns the stored value (even a stored Python `None`), counts a hit, and
moves the entry to most-recently-used. -/
theorem get_hit (c : LRUCache α) (now : Int) (k : Key) (w : Option α)
    (X Y : List (Key × Option α))
    (hcache : c.cache = X ++ (k, w) :: Y)
    (hX : containsKey k X = false)
    (hexp : c.isExpired now k = false) :
    (c.get now k).1 = w ∧
    (c.get now k).2.hits = c.hits + 1 ∧
    (c.get now k).2.cache =
      (X.filter (fun p => !(c.isExpired now p.1)) ++
        Y.filter (fun p => !(c.isExpired now p.1))) ++ [(k, w)] := by
  have hfilt : (c.evictExpired now).cache
      = X.filter (fun p => !(c.isExpired now p.1)) ++
        (k, w) :: Y.filter (fun p => !(c.isExpired now p.1)) := by
    rw [evictExpired_cache, hcache, List.filter_append]
    simp [hexp]
  have hXf : containsKey k (X.filter (fun p => !(c.isExpired now p.1))) = false :=
    containsKey_false_of_sublist (List.filter_sublist X) hX
  have hexp1 : (c.evictExpired now).isExpired now k = false :=
    isExpired_evictExpired_false c now k hexp
  simp only [LRUCache.get]
  rw [hfilt, alPop_append_middle w _ hXf, hexp1]
  exact ⟨rfl, rfl, rfl⟩

/-- A `get` of an expired key: missed, and the entry is purged. -/
theorem get_stale (c : LRUCache α) (now : Int) (k : Key)
    (hexp : c.isExpired now k = true) :
    (c.get now k).1 = none ∧ containsKey k (c.get now k).2.cache = false := by
  have hno : containsKey k (c.evictExpired now).cache = false := by
    rw [evictExpired_cache]
    exact containsKey_filter_of_key_false (fun v => by simp [hexp])
  simp only [LRUCache.get]
  rw [alPop_eq_none_of_not_contains hno]
  exact ⟨rfl, hno⟩

/-- C1 counterexample: capacity 2, no TTL.  After `set "a"`, `set "b"` the key
`"a"` is present; a `set` on the already-present key `"b"` raises nothing but
evicts `"a"` — the code runs `_evict_lru` before checking whether the key
already exists, so a replace at capacity evicts another entry, refuting the
claim's "without evicting any other entry". -/
theorem claim1_counterexample :
    containsKey "a"
      (((LRUCache.empty Nat 2 none).set 0 "a" (some 1) none).1.set 1 "b"
        (some 2) none).1.cache = true ∧
    ((((LRUCache.empty Nat 2 none).set 0 "a" (some 1) none).1.set 1 "b"
        (some 2) none).1.set 2 "b" (some 3) none).2 = none ∧
    containsKey "a"
      ((((LRUCache.empty Nat 2 none).set 0 "a" (some 1) none).1.set 1 "b"
        (some 2) none).1.set 2 "b" (some 3) none).1.cache = false := by
  refine ⟨by decide, by decide, by decide⟩

/-- C1 amended: over every operation sequence on a cache of capacity `n ≥ 1`
the entry count never exceeds `n`; after any non-raising `set` the key evicted
by LRU pressure (if any) is exactly the least-recently-touched key among those
not expired (the head of the purged order), and the set key ends up
most-recently-used with its TTL clock reset to `now` — but when the cache is
at capacity the eviction happens even if the set key already exists, so a
replace at capacity still evicts the least-recently-used other entry. -/
theorem claim1_lru_invariant_amended {α : Type} :
    (∀ (n : Nat), 1 ≤ n → ∀ (ttl0 : Option Int) (ops : List (Int × Op α)),
       ((LRUCache.empty α n ttl0).runOps ops).1.cache.length ≤ n) ∧
    (∀ (c : LRUCache α) (now : Int) (k : Key) (v : Option α) (t : Option Int),
       1 ≤ c.max_size → (keysOf c.cache).Nodup →
       (∀ k', k' ≠ k →
         (containsKey k' (c.set now k v t).1.cache = true ↔
           (containsKey k' (c.evictExpired now).cache = true ∧
             ¬(c.max_size ≤ (c.evictExpired now).cache.length ∧
               (keysOf (c.evictExpired now).cache).head? = some k')))) ∧
       (c.set now k v t).1.cache.getLast? = some (k, v) ∧
       (t = none → alGet? k (c.set now k v t).1.timestamps = some now)) := by
  constructor
  · intro n _ ttl0 ops
    exact (runOps_invariant ops (LRUCache.empty α n ttl0) (by simp [LRUCache.empty])).1
  · intro c now k v t h1 hnd
    obtain ⟨hcache, hts, _⟩ := set_spec c now k v t h1
    have hdnod : (keysOf (c.evictExpired now).cache).Nodup := by
      rw [evictExpired_cache]
      exact nodup_keysOf_filter hnd _
    refine ⟨?_, ?_, ?_⟩
    · intro k' hne
      rw [hcache]
      simp only
      set base := if c.max_size ≤ (c.evictExpired now).cache.length
          then (c.evictExpired now).cache.tail else (c.evictExpired now).cache with hbase
      have hY : containsKey k'
          ((if containsKey k base then alErase k base else base) ++ [(k, v)]) =
          containsKey k' base := by
        rw [containsKey_append]
        have hsing : containsKey k' [(k, v)] = false := by
          simp [containsKey, hne]
        rw [hsing, Bool.or_false]
        split
        · exact containsKey_alErase_of_ne hne base
        · rfl
      rw [hY]
      by_cases hcap : c.max_size ≤ (c.evictExpired now).cache.length
      · cases hd : (c.evictExpired now).cache with
        | nil =>
          rw [hd] at hcap
          simp at hcap
          omega
        | cons p rest =>
          cases p with
          | mk k0 w0 =>
            rw [hd] at hcap hdnod
            have hbase' : base = rest := by
              rw [hbase, hd, if_pos hcap]
              rfl
            rw [hbase']
            simp only [keysOf, List.map_cons, List.nodup_cons] at hdnod
            by_cases hk0 : k' = k0
            · subst hk0
              have : containsKey k' rest = false :=
                containsKey_eq_false_iff.mpr (by simpa [keysOf] using hdnod.1)
              rw [this]
              constructor
              · intro hfalse
                exact absurd hfalse (by simp)
              · rintro ⟨-, hno⟩
                exact absurd ⟨hcap, by simp [keysOf]⟩ hno
            · simp [containsKey, hk0, keysOf, Ne.symm hk0]
      · have hbase' : base = (c.evictExpired now).cache := by rw [hbase, if_neg hcap]
        rw [hbase']
        simp [hcap]
    · rw [hcache]
      simp only
      exact List.getLast?_concat _
    · intro ht
      subst ht
      exact hts

/-- C1 witness: the size bound on a concrete overflowing sequence, and the
set characterization on a concrete cache. -/
theorem claim1_witness :
    ((LRUCache.empty Nat 2 none).runOps
        [(0, Op.setOp "a" (some 1) none), (1, Op.setOp "b" (some 2) none),
         (2, Op.setOp "c" (some 3) none), (3, Op.getOp "b")]).1.cache.length ≤ 2 ∧
    ((LRUCache.empty Nat 2 none).set 0 "a" (some 1) none).1.cache.getLast? =
      some ("a", some 1) := by
  have h := claim1_lru_invariant_amended (α := Nat)
  exact ⟨h.1 2 (by decide) none _,
    (h.2 (LRUCache.empty Nat 2 none) 0 "a" (some 1) none (by decide) (by decide)).2.1⟩

/-- After a successful positive-capacity `set` on a duplicate-free cache, the
new entry sits most-recently-used with no earlier entry of its key. -/
theorem set_entry_fresh (c : LRUCache α) (now : Int) (k : Key) (v : Option α)
    (t : Option Int) (h1 : 1 ≤ c.max_size) (hnd : (keysOf c.cache).Nodup) :
    ∃ X, (c.set now k v t).1.cache = X ++ (k, v) :: [] ∧ containsKey k X = false := by
  obtain ⟨hcache, _, _⟩ := set_spec c now k v t h1
  have hdnod : (keysOf (c.evictExpired now).cache).Nodup := by
    rw [evictExpired_cache]
    exact nodup_keysOf_filter hnd _
  have hbasesub : List.Sublist
      (if c.max_size ≤ (c.evictExpired now).cache.length
       then (c.evictExpired now).cache.tail else (c.evictExpired now).cache)
      (c.evictExpired now).cache := by
    split
    · exact List.tail_sublist _
    · exact List.Sublist.refl _
  have hbnod : (keysOf (if c.max_size ≤ (c.evictExpired now).cache.length
      then (c.evictExpired now).cache.tail else (c.evictExpired now).cache)).Nodup :=
    hdnod.sublist (hbasesub.map Prod.fst)
  have key : ∀ base : List (Key × Option α), (keysOf base).Nodup →
      containsKey k (if containsKey k base then alErase k base else base) = false := by
    intro base hb
    split
    · exact containsKey_eq_false_iff.mpr (not_mem_keysOf_alErase_self hb)
    · next hnc => exact Bool.eq_false_iff.mpr hnc
  exact ⟨_, hcache, key _ hbnod⟩

/-- The expiry test after a `set` with an explicit per-entry TTL `T` on a
cache with default TTL `D` is exactly "more than `T` elapsed since the set". -/
theorem isExpired_after_set_explicit (c : LRUCache α) (D now : Int) (k : Key)
    (v : Option α) (T : Int) (httl : c.ttl = some D) (h1 : 1 ≤ c.max_size) :
    ∀ t' : Int, ((c.set now k v (some T)).1).isExpired t' k = decide (t' - now > T) := by
  intro t'
  obtain ⟨_, hts, _⟩ := set_spec c now k v (some T) h1
  rw [httl] at hts
  simp only [LRUCache.isExpired, set_ttl, httl, hts]
  rw [decide_eq_decide]
  omega

/-- The expiry test after a `set` with no per-entry TTL on a cache with
default TTL `D` is exactly "more than `D` elapsed since the set". -/
theorem isExpired_after_set_default (c : LRUCache α) (D now : Int) (k : Key)
    (v : Option α) (httl : c.ttl = some D) (h1 : 1 ≤ c.max_size) :
    ∀ t' : Int, ((c.set now k v none).1).isExpired t' k = decide (t' - now > D) := by
  intro t'
  obtain ⟨_, hts, _⟩ := set_spec c now k v none h1
  simp only [LRUCache.isExpired, set_ttl, httl, hts]

/-- C4 counterexample: on a cache with default TTL 5, an entry `set` with a
null per-entry TTL is nonetheless expired by time (get at time 10 after set at
time 0 misses), refuting "null TTL means never expires by time"; and on a
cache constructed with no default TTL, a `set` with an explicit per-entry TTL
raises `TypeError` (`time.time() - self.ttl + ttl` with `self.ttl = None`),
refuting "this must hold for every cache configuration". -/
theorem claim4_counterexample :
    (((LRUCache.empty Nat 1 (some 5)).set 0 "a" (some 7) none).1.get 10 "a").1 =
      none ∧
    ((LRUCache.empty Nat 1 none).set 0 "a" (some 7) (some 5)).2 =
      some "TypeError" := by
  exact ⟨by decide, rfl⟩

/-- C4 amended: on a cache with default TTL `D`, `get` within `T` of a
`set(k, v, ttl := T)` returns `v` and `get` more than `T` after it misses and
purges the entry; an entry `set` with an absent per-entry TTL expires after
the default TTL `D` (not never); on a cache with no default TTL entries never
expire by time, but a `set` with an explicit per-entry TTL raises
`TypeError`. -/
theorem claim4_ttl_semantics_amended {α : Type} :
    (∀ (c : LRUCache α) (D now : Int) (k : Key) (v : Option α) (T t1 t2 : Int),
       c.ttl = some D → 1 ≤ c.max_size → (keysOf c.cache).Nodup →
       (t1 - now ≤ T → ((c.set now k v (some T)).1.get t1 k).1 = v) ∧
       (t2 - now > T → ((c.set now k v (some T)).1.get t2 k).1 = none ∧
         containsKey k ((c.set now k v (some T)).1.get t2 k).2.cache = false)) ∧
    (∀ (c : LRUCache α) (D now : Int) (k : Key) (v : Option α) (t : Int),
       c.ttl = some D → 1 ≤ c.max_size →
       t - now > D → ((c.set now k v none).1.get t k).1 = none) ∧
    (∀ (c : LRUCache α) (now : Int) (k : Key) (v : Option α),
       c.ttl = none → 1 ≤ c.max_size → (keysOf c.cache).Nodup →
       (∀ t : Int, ((c.set now k v none).1.get t k).1 = v) ∧
       (∀ T : Int, (c.set now k v (some T)).2 = some "TypeError")) := by
  refine ⟨?_, ?_, ?_⟩
  · intro c D now k v T t1 t2 httl h1 hnd
    obtain ⟨X, hX, hXn⟩ := set_entry_fresh c now k v (some T) h1 hnd
    constructor
    · intro ht1
      have hexp : ((c.set now k v (some T)).1).isExpired t1 k = false := by
        rw [isExpired_after_set_explicit c D now k v T httl h1 t1]
        simp
        omega
      exact (get_hit _ t1 k v X [] hX hXn hexp).1
    · intro ht2
      have hexp : ((c.set now k v (some T)).1).isExpired t2 k = true := by
        rw [isExpired_after_set_explicit c D now k v T httl h1 t2]
        simpa using ht2
      exact get_stale _ t2 k hexp
  · intro c D now k v t httl h1 ht
    have hexp : ((c.set now k v none).1).isExpired t k = true := by
      rw [isExpired_after_set_default c D now k v httl h1 t]
      simpa using ht
    exact (get_stale _ t k hexp).1
  · intro c now k v httl h1 hnd
    constructor
    · intro t
      obtain ⟨X, hX, hXn⟩ := set_entry_fresh c now k v none h1 hnd
      have hexp : ((c.set now k v none).1).isExpired t k = false := by
        simp only [LRUCache.isExpired, set_ttl, httl]
      exact (get_hit _ t k v X [] hX hXn hexp).1
    · intro T
      have := (set_spec c now k v (some T) h1).2.2
      rw [httl] at this
      exact this

/-- C4 witness: the amended theorem at concrete caches, times and TTLs. -/
theorem claim4_witness :
    (((LRUCache.empty Nat 2 (some 5)).set 0 "k" (some 9) (some 3)).1.get 2 "k").1 =
      some 9 ∧
    (((LRUCache.empty Nat 2 (some 5)).set 0 "k" (some 9) (some 3)).1.get 4 "k").1 =
      none ∧
    (((LRUCache.empty Nat 2 (some 5)).set 0 "k" (some 9) none).1.get 6 "k").1 =
      none ∧
    (((LRUCache.empty Nat 2 none).set 0 "k" (some 9) none).1.get 100 "k").1 =
      some 9 ∧
    ((LRUCache.empty Nat 2 none).set 0 "k" (some 9) (some 3)).2 =
      some "TypeError" := by
  have h := claim4_ttl_semantics_amended (α := Nat)
  refine ⟨?_, ?_, ?_, ?_, ?_⟩
  · exact (h.1 (LRUCache.empty Nat 2 (some 5)) 5 0 "k" (some 9) 3 2 4 rfl
      (by decide) (by decide)).1 (by decide)
  · exact ((h.1 (LRUCache.empty Nat 2 (some 5)) 5 0 "k" (some 9) 3 2 4 rfl
      (by decide) (by decide)).2 (by decide)).1
  · exact h.2.1 (LRUCache.empty Nat 2 (some 5)) 5 0 "k" (some 9) 6 rfl
      (by decide) (by decide)
  · exact (h.2.2 (LRUCache.empty Nat 2 none) 0 "k" (some 9) rfl
      (by decide) (by decide)).1 100
  · exact (h.2.2 (LRUCache.empty Nat 2 none) 0 "k" (some 9) rfl
      (by decide) (by decide)).2 3

/-- C5: tiered promotion.  For a key absent from L1 but present (with a
non-`None` value) in the configured dict-backed L2 store, `get` returns the
L2 value and immediately afterwards L1 contains that key-value pair, while
the L2 store state is left untouched. -/
theorem claim5_tiered_promotion {α : Type}
    (m : MultiLevelCache α (List (Key × Option α))) (now : Int) (k : Key) (v : α)
    (s : List (Key × Option α))
    (hl2 : m.l2_cache = some (dictL2 α, s))
    (habs : containsKey k m.l1_cache.cache = false)
    (hs : alGet? k s = some (some v))
    (hcap : 1 ≤ m.l1_cache.max_size) :
    ∃ l1' : LRUCache α,
      m.get now k = .ok (some v, ⟨l1', some (dictL2 α, s), m.l3_fetcher⟩) ∧
      alGet? k l1'.cache = some (some v) := by
  obtain ⟨hg1, hg2, hg3⟩ := get_miss m.l1_cache now k habs
  have hcapx : 1 ≤ ((m.l1_cache.get now k).2).max_size := by
    rw [get_max_size]
    exact hcap
  cases hset : ((m.l1_cache.get now k).2).set now k (some v) none with
  | mk l1' e =>
    have he : e = none := by
      have := set_none_ttl_ok ((m.l1_cache.get now k).2) now k (some v) hcapx
      rw [hset] at this
      exact this
    subst he
    refine ⟨l1', ?_, ?_⟩
    · simp [MultiLevelCache.get, dictL2, hg1, hl2, hs, hset]
    · obtain ⟨hc1, _, _⟩ := set_spec ((m.l1_cache.get now k).2) now k (some v) none hcapx
      rw [hset] at hc1
      simp only at hc1
      have hbsub : List.Sublist
          (if ((m.l1_cache.get now k).2).max_size ≤
              (((m.l1_cache.get now k).2).evictExpired now).cache.length
           then (((m.l1_cache.get now k).2).evictExpired now).cache.tail
           else (((m.l1_cache.get now k).2).evictExpired now).cache)
          (((m.l1_cache.get now k).2).evictExpired now).cache := by
        split
        · exact List.tail_sublist _
        · exact List.Sublist.refl _
      have hnb : containsKey k
          (if ((m.l1_cache.get now k).2).max_size ≤
              (((m.l1_cache.get now k).2).evictExpired now).cache.length
           then (((m.l1_cache.get now k).2).evictExpired now).cache.tail
           else (((m.l1_cache.get now k).2).evictExpired now).cache) = false :=
        containsKey_false_of_sublist hbsub
          (containsKey_false_of_sublist (evictExpired_cache_sublist _ now) hg3)
      rw [hnb] at hc1
      simp only [Bool.false_eq_true, if_false] at hc1
      rw [hc1, alGet?_append_of_not_contains hnb]
      simp [alGet?]

/-- C5 witness: a concrete empty L1 with a singleton dict L2. -/
theorem claim5_witness :
    ∃ l1' : LRUCache Nat,
      MultiLevelCache.get
        (⟨LRUCache.empty Nat 2 none, some (dictL2 Nat, [("k", some 5)]), none⟩ :
          MultiLevelCache Nat (List (Key × Option Nat)))
        0 "k" = .ok (some 5, ⟨l1', some (dictL2 Nat, [("k", some 5)]), none⟩) ∧
      alGet? "k" l1'.cache = some (some 5) := by
  have h := claim5_tiered_promotion
    (⟨LRUCache.empty Nat 2 none, some (dictL2 Nat, [("k", some 5)]), none⟩ :
      MultiLevelCache Nat (List (Key × Option Nat)))
    0 "k" 5 [("k", some 5)] rfl (by decide) (by decide) (by decide)
  exact h

/-- C10: a stored Python `None` is indistinguishable from absence at the read
interface.  In L1, a `get` of a live entry whose stored value is `None`
returns the absent marker while still counting a hit and touching the entry
to most-recently-used.  In the tiered cache, with such an entry in L1, `get`
treats L1 as missed and falls through to L2 (observable on a counting store)
and then to the L3 fetcher, re-fetching — and, when the fetch yields a value,
re-writing it into L1 and L2. -/
theorem claim10_none_value_indistinguishable {α : Type} :
    (∀ (c : LRUCache α) (now : Int) (k : Key) (X Y : List (Key × Option α)),
       c.cache = X ++ (k, none) :: Y → containsKey k X = false →
       c.isExpired now k = false →
       (c.get now k).1 = none ∧
       (c.get now k).2.hits = c.hits + 1 ∧
       (c.get now k).2.cache.getLast? = some (k, (none : Option α))) ∧
    (∀ (m : MultiLevelCache α Nat) (now : Int) (k : Key) (s : Nat)
        (f : Key → Except PyErr (Option α)) (X Y : List (Key × Option α)),
       m.l2_cache = some (countingL2 α, s) →
       m.l3_fetcher = some f →
       m.l1_cache.cache = X ++ (k, none) :: Y → containsKey k X = false →
       m.l1_cache.isExpired now k = false →
       1 ≤ m.l1_cache.max_size →
       (f k = .ok none → ∃ m', m.get now k = .ok (none, m') ∧
          m'.l2_cache = some (countingL2 α, s + 1)) ∧
       (∀ w : α, f k = .ok (some w) → ∃ m', m.get now k = .ok (some w, m') ∧
          m'.l2_cache = some (countingL2 α, s + 2) ∧
          m'.l1_cache.cache.getLast? = some (k, some w))) := by
  constructor
  · intro c now k X Y hcache hX hexp
    obtain ⟨h1, h2, h3⟩ := get_hit c now k none X Y hcache hX hexp
    refine ⟨h1, h2, ?_⟩
    rw [h3]
    exact List.getLast?_concat _
  · intro m now k s f X Y hl2 hl3 hcache hX hexp hcap
    obtain ⟨hg1, _, _⟩ := get_hit m.l1_cache now k none X Y hcache hX hexp
    constructor
    · intro hf
      refine ⟨⟨(m.l1_cache.get now k).2, some (countingL2 α, s + 1), m.l3_fetcher⟩,
        ?_, rfl⟩
      simp [MultiLevelCache.get, MultiLevelCache.l3Step, countingL2, hg1, hl2, hl3, hf]
    · intro w hf
      have hcapx : 1 ≤ ((m.l1_cache.get now k).2).max_size := by
        rw [get_max_size]
        exact hcap
      cases hset : ((m.l1_cache.get now k).2).set now k (some w) none with
      | mk l1'' e =>
        have he : e = none := by
          have := set_none_ttl_ok ((m.l1_cache.get now k).2) now k (some w) hcapx
          rw [hset] at this
          exact this
        subst he
        refine ⟨⟨l1'', some (countingL2 α, s + 2), m.l3_fetcher⟩, ?_, rfl, ?_⟩
        · simp [MultiLevelCache.get, MultiLevelCache.l3Step, countingL2, hg1, hl2,
            hl3, hf, hset]
        · obtain ⟨hc1, _, _⟩ := set_spec ((m.l1_cache.get now k).2) now k (some w)
            none hcapx
          rw [hset] at hc1
          simp only at hc1
          rw [hc1]
          exact List.getLast?_concat _

/-- C10 witness: a concrete cache holding `None` under key `"k"`, behind a
counting L2 and a fetcher producing `7`. -/
theorem claim10_witness :
    ((⟨2, none, [("k", none)], [("k", 0)], 0, 0⟩ : LRUCache Nat).get 1 "k").1 =
      none ∧
    ((⟨2, none, [("k", none)], [("k", 0)], 0, 0⟩ : LRUCache Nat).get 1 "k").2.hits =
      1 ∧
    (∃ m', MultiLevelCache.get
        (⟨⟨2, none, [("k", none)], [("k", 0)], 0, 0⟩,
          some (countingL2 Nat, 0), some (fun _ => .ok (some 7))⟩ :
          MultiLevelCache Nat Nat)
        1 "k" = .ok (some 7, m') ∧
      m'.l2_cache = some (countingL2 Nat, 2) ∧
      m'.l1_cache.cache.getLast? = some ("k", some 7)) := by
  have h := claim10_none_value_indistinguishable (α := Nat)
  have h1 := h.1 (⟨2, none, [("k", none)], [("k", 0)], 0, 0⟩ : LRUCache Nat)
    1 "k" [] [] rfl rfl rfl
  have h2 := (h.2
    (⟨⟨2, none, [("k", none)], [("k", 0)], 0, 0⟩,
      some (countingL2 Nat, 0), some (fun _ => .ok (some 7))⟩ :
      MultiLevelCache Nat Nat)
    1 "k" 0 (fun _ => .ok (some 7)) [] [] rfl rfl rfl rfl rfl (by decide)).2 7 rfl
  exact ⟨h1.1, by rw [h1.2.1], h2⟩

end SmartTrain
